import Mathlib

/-!
Verification development for the aspis bottom-up datalog solver.

The definitions below are shallow embeddings of the TypeScript sources:
src/terms.ts (patterns, ground data, matching, substitution application,
equality, printing, parsing) and src/datalog.ts (database, stepper).
JavaScript strings are modelled as List Char where character-level
behaviour matters, substitutions (plain JS objects) as association lists
whose values are Option Data (a key can hold undefined), and thrown
exceptions as Option results (none = the call threw).
-/

namespace Aspis

/-- Patterns: constructors with arguments, integer and string literals,
the unit value, and variables (terms.ts, type Pattern). -/
inductive Pattern where
  | const (name : String) (args : List Pattern)
  | int (value : Int)
  | string (value : String)
  | var (name : String)
  | triv

/-- Ground data: the same shape without variables (terms.ts, type Data). -/
inductive Data where
  | const (name : String) (args : List Data)
  | int (value : Int)
  | string (value : String)
  | triv

mutual
def Pattern.beq : Pattern → Pattern → Bool
  | Pattern.const n args, Pattern.const m bargs => n == m && Pattern.beqList args bargs
  | Pattern.int v, Pattern.int w => v == w
  | Pattern.string v, Pattern.string w => v == w
  | Pattern.var v, Pattern.var w => v == w
  | Pattern.triv, Pattern.triv => true
  | _, _ => false

def Pattern.beqList : List Pattern → List Pattern → Bool
  | [], [] => true
  | p :: ps, q :: qs => Pattern.beq p q && Pattern.beqList ps qs
  | _, _ => false
end

mutual
theorem Pattern.beq_iff : ∀ a b : Pattern, Pattern.beq a b = true ↔ a = b
  | Pattern.const n args, Pattern.const m bargs => by
    simp only [Pattern.beq, Bool.and_eq_true, beq_iff_eq, Pattern.beqList_iff args bargs,
      Pattern.const.injEq]
  | Pattern.const _ _, Pattern.int _ | Pattern.const _ _, Pattern.string _
  | Pattern.const _ _, Pattern.var _ | Pattern.const _ _, Pattern.triv
  | Pattern.int _, Pattern.const _ _ | Pattern.int _, Pattern.string _
  | Pattern.int _, Pattern.var _ | Pattern.int _, Pattern.triv
  | Pattern.string _, Pattern.const _ _ | Pattern.string _, Pattern.int _
  | Pattern.string _, Pattern.var _ | Pattern.string _, Pattern.triv
  | Pattern.var _, Pattern.const _ _ | Pattern.var _, Pattern.int _
  | Pattern.var _, Pattern.string _ | Pattern.var _, Pattern.triv
  | Pattern.triv, Pattern.const _ _ | Pattern.triv, Pattern.int _
  | Pattern.triv, Pattern.string _ | Pattern.triv, Pattern.var _ => by
    simp [Pattern.beq]
  | Pattern.int v, Pattern.int w => by simp [Pattern.beq]
  | Pattern.string v, Pattern.string w => by simp [Pattern.beq]
  | Pattern.var v, Pattern.var w => by simp [Pattern.beq]
  | Pattern.triv, Pattern.triv => by simp [Pattern.beq]

theorem Pattern.beqList_iff : ∀ as bs : List Pattern, Pattern.beqList as bs = true ↔ as = bs
  | [], [] => by simp [Pattern.beqList]
  | [], _ :: _ => by simp [Pattern.beqList]
  | _ :: _, [] => by simp [Pattern.beqList]
  | p :: ps, q :: qs => by
    simp only [Pattern.beqList, Bool.and_eq_true, Pattern.beq_iff p q,
      Pattern.beqList_iff ps qs, List.cons.injEq]
end

instance : DecidableEq Pattern := fun a b => decidable_of_iff _ (Pattern.beq_iff a b)

mutual
def Data.beq : Data → Data → Bool
  | Data.const n args, Data.const m bargs => n == m && Data.beqList args bargs
  | Data.int v, Data.int w => v == w
  | Data.string v, Data.string w => v == w
  | Data.triv, Data.triv => true
  | _, _ => false

def Data.beqList : List Data → List Data → Bool
  | [], [] => true
  | d :: ds, e :: es => Data.beq d e && Data.beqList ds es
  | _, _ => false
end

mutual
theorem Data.beq_correct : ∀ a b : Data, Data.beq a b = true ↔ a = b
  | Data.const n args, Data.const m bargs => by
    simp only [Data.beq, Bool.and_eq_true, beq_iff_eq, Data.beqList_correct args bargs,
      Data.const.injEq]
  | Data.const _ _, Data.int _ | Data.const _ _, Data.string _ | Data.const _ _, Data.triv
  | Data.int _, Data.const _ _ | Data.int _, Data.string _ | Data.int _, Data.triv
  | Data.string _, Data.const _ _ | Data.string _, Data.int _ | Data.string _, Data.triv
  | Data.triv, Data.const _ _ | Data.triv, Data.int _ | Data.triv, Data.string _ => by
    simp [Data.beq]
  | Data.int v, Data.int w => by simp [Data.beq]
  | Data.string v, Data.string w => by simp [Data.beq]
  | Data.triv, Data.triv => by simp [Data.beq]

theorem Data.beqList_correct : ∀ as bs : List Data, Data.beqList as bs = true ↔ as = bs
  | [], [] => by simp [Data.beqList]
  | [], _ :: _ => by simp [Data.beqList]
  | _ :: _, [] => by simp [Data.beqList]
  | d :: ds, e :: es => by
    simp only [Data.beqList, Bool.and_eq_true, Data.beq_correct d e,
      Data.beqList_correct ds es, List.cons.injEq]
end

instance : DecidableEq Data := fun a b => decidable_of_iff _ (Data.beq_correct a b)

mutual
/-- View of ground data as a pattern (Data is a subtype of Pattern in the
source; the var-bound case of match feeds a stored Data back in as the
pattern argument). -/
def Data.toPattern : Data → Pattern
  | Data.const n args => Pattern.const n (Data.toPatternList args)
  | Data.int v => Pattern.int v
  | Data.string v => Pattern.string v
  | Data.triv => Pattern.triv

def Data.toPatternList : List Data → List Pattern
  | [] => []
  | d :: ds => Data.toPattern d :: Data.toPatternList ds
end

/-- Substitutions are JS objects mapping variable names to Data; a key can
also hold undefined (modelled as none), which arises in the stepper when a
rule copies a binding that is absent (terms.ts, type Substitution). -/
abbrev Subst : Type := List (String × Option Data)

/-- Property access substitution[name] in JS: undefined both when the key
is absent and when it is present with value undefined. -/
def jsGet (s : Subst) (name : String) : Option Data :=
  match s with
  | [] => none
  | (k, v) :: rest => if k = name then v else jsGet rest name

/-- Property assignment substitution[name] = v in JS: the key keeps its
position when present, otherwise it is appended. -/
def setKey (s : Subst) (name : String) (v : Option Data) : Subst :=
  match s with
  | [] => [(name, v)]
  | (k, w) :: rest => if k = name then (k, v) :: rest else (k, w) :: setKey rest name v

/-- Weight used for the termination measure of matchPat: a variable can
step to the pattern view of its stored ground data without shrinking the
data argument, and that view is never again a variable. -/
def patWeight : Pattern → Nat
  | Pattern.var _ => 1
  | _ => 0

mutual
/-- First-order one-way matching of a pattern against ground data
(terms.ts, function match). A bound variable re-matches its stored Data
against the incoming data; an unbound variable is bound by extension
(the object spread appends the new key; an existing key would keep its
earlier position and value under first-key lookup). -/
def matchPat (s : Subst) (p : Pattern) (d : Data) : Option Subst :=
  match p with
  | Pattern.const n args =>
    match d with
    | Data.const m dargs =>
      if n = m ∧ args.length = dargs.length then matchPatList s args dargs else none
    | _ => none
  | Pattern.int v =>
    match d with
    | Data.int w => if v = w then some s else none
    | _ => none
  | Pattern.string v =>
    match d with
    | Data.string w => if v = w then some s else none
    | _ => none
  | Pattern.triv =>
    match d with
    | Data.triv => some s
    | _ => none
  | Pattern.var x =>
    match jsGet s x with
    | some bound => matchPat s (Data.toPattern bound) d
    | none => some (s ++ [(x, some d)])
termination_by (sizeOf d, patWeight p)
decreasing_by
  all_goals simp_wf
  all_goals first
    | (apply Prod.Lex.left; omega)
    | (apply Prod.Lex.left; simp; omega)
    | (apply Prod.Lex.right; cases bound <;> simp [Data.toPattern, patWeight])

/-- Pointwise matching of a list of patterns against a list of data,
threading the substitution (the index loop of the const case of match). -/
def matchPatList (s : Subst) (ps : List Pattern) (ds : List Data) : Option Subst :=
  match ps, ds with
  | [], [] => some s
  | p :: ps, d :: ds =>
    match matchPat s p d with
    | some s1 => matchPatList s1 ps ds
    | none => none
  | _, _ => none
termination_by (sizeOf ds, sizeOf ps)
decreasing_by
  all_goals simp_wf
  all_goals first
    | (apply Prod.Lex.left; omega)
    | (apply Prod.Lex.left; simp; omega)
end

mutual
/-- Substitution application (terms.ts, function apply); none models the
thrown error on an unbound variable. -/
def apply (s : Subst) (p : Pattern) : Option Data :=
  match p with
  | Pattern.int v => some (Data.int v)
  | Pattern.string v => some (Data.string v)
  | Pattern.triv => some Data.triv
  | Pattern.var x => jsGet s x
  | Pattern.const n args =>
    match applyList s args with
    | some ds => some (Data.const n ds)
    | none => none

def applyList (s : Subst) (ps : List Pattern) : Option (List Data) :=
  match ps with
  | [] => some []
  | p :: ps =>
    match apply s p with
    | some d =>
      match applyList s ps with
      | some ds => some (d :: ds)
      | none => none
    | none => none
end

mutual
/-- Equality test on ground data as written in the source (terms.ts,
function equal). Note the int and string cases return the conjunction of
same type with DIFFERENT value (the source compares with a strict
inequality), so two identical literals compare unequal and two distinct
literals of the same type compare equal. -/
def equal (t : Data) (sd : Data) : Bool :=
  match t with
  | Data.int v =>
    match sd with
    | Data.int w => v != w
    | _ => false
  | Data.string v =>
    match sd with
    | Data.string w => v != w
    | _ => false
  | Data.triv =>
    match sd with
    | Data.triv => true
    | _ => false
  | Data.const n args =>
    match sd with
    | Data.const m bargs => n == m && args.length == bargs.length && equalList args bargs
    | _ => false

/-- Pointwise equal over already length-checked lists (the every calls). -/
def equalList (ts : List Data) (ss : List Data) : Bool :=
  match ts, ss with
  | [], _ => true
  | t :: ts, s :: ss => equal t s && equalList ts ss
  | _ :: _, [] => true
end

/-- A substitution of the type declared in terms.ts: every stored key maps
to actual Data, never to undefined. -/
def wfSubst (s : Subst) : Bool :=
  s.all (fun e => e.2.isSome)

theorem jsGet_append_some (s t : Subst) (x : String) (v : Data)
    (h : jsGet s x = some v) : jsGet (s ++ t) x = some v := by
  induction s with
  | nil => simp [jsGet] at h
  | cons e rest ih =>
    obtain ⟨k, w⟩ := e
    by_cases hk : k = x
    · simpa [jsGet, hk] using h
    · simp only [jsGet, List.cons_append, if_neg hk] at h ⊢
      exact ih h

theorem wfSubst_append (s : Subst) (x : String) (d : Data)
    (h : wfSubst s = true) : wfSubst (s ++ [(x, some d)]) = true := by
  simp [wfSubst, List.all_append] at h ⊢
  exact h

theorem jsGet_append_fresh (s : Subst) (x : String) (d : Data)
    (hwf : wfSubst s = true) (h : jsGet s x = none) :
    jsGet (s ++ [(x, some d)]) x = some d := by
  induction s with
  | nil => simp [jsGet]
  | cons e rest ih =>
    obtain ⟨k, w⟩ := e
    by_cases hk : k = x
    · subst hk
      simp only [jsGet, if_pos rfl] at h
      subst h
      simp [wfSubst] at hwf
    · simp only [jsGet, if_neg hk] at h
      simp only [wfSubst, List.all_cons, Bool.and_eq_true] at hwf
      simp only [jsGet, List.cons_append, if_neg hk]
      exact ih hwf.2 h

theorem toPatternList_length : ∀ ds : List Data, (Data.toPatternList ds).length = ds.length
  | [] => rfl
  | _ :: ds => by simp [Data.toPatternList, toPatternList_length ds]

mutual
/-- Matching a stored ground binding (viewed as a pattern) against ground
data succeeds exactly on equal data and never extends the substitution. -/
theorem matchPat_ground : ∀ (s : Subst) (b d : Data) (s' : Subst),
    matchPat s (Data.toPattern b) d = some s' → s' = s ∧ b = d
  | s, Data.int v, d, s' => by
    cases d <;> simp only [Data.toPattern, matchPat] <;> intro h
    case int w => split at h <;> simp_all
    all_goals simp_all
  | s, Data.string v, d, s' => by
    cases d <;> simp only [Data.toPattern, matchPat] <;> intro h
    case string w => split at h <;> simp_all
    all_goals simp_all
  | s, Data.triv, d, s' => by
    cases d <;> simp only [Data.toPattern, matchPat] <;> intro h <;> simp_all
  | s, Data.const n args, d, s' => by
    cases d <;> simp only [Data.toPattern, matchPat] <;> intro h
    case const m dargs =>
      split at h
      · rename_i hc
        obtain ⟨h1, h2⟩ := matchPatList_ground s args dargs s' h
        exact ⟨h1, by simp [hc.1, h2]⟩
      · simp_all
    all_goals simp_all

theorem matchPatList_ground : ∀ (s : Subst) (bs ds : List Data) (s' : Subst),
    matchPatList s (Data.toPatternList bs) ds = some s' → s' = s ∧ bs = ds
  | s, [], ds, s' => by
    cases ds with
    | nil =>
      intro h
      simp only [Data.toPatternList, matchPatList, Option.some.injEq] at h
      exact ⟨h.symm, rfl⟩
    | cons d ds => simp [Data.toPatternList, matchPatList]
  | s, b :: bs, ds, s' => by
    cases ds with
    | nil => simp [Data.toPatternList, matchPatList]
    | cons d ds =>
      simp only [Data.toPatternList, matchPatList]
      cases hm : matchPat s (Data.toPattern b) d with
      | none => simp
      | some s1 =>
        intro h
        have hg := matchPat_ground s b d s1 hm
        have h' : matchPatList s (Data.toPatternList bs) ds = some s' := by
          rw [← hg.1]
          exact h
        have hl := matchPatList_ground s bs ds s' h'
        exact ⟨hl.1, by rw [hg.2, hl.2]⟩
end

mutual
/-- Matching only ever appends fresh bindings: every lookup that succeeded
before the match still returns the same Data afterwards. -/
theorem matchPat_extends_aux : ∀ (s : Subst) (p : Pattern) (d : Data) (s' : Subst),
    matchPat s p d = some s' → ∀ x v, jsGet s x = some v → jsGet s' x = some v
  | s, Pattern.const n args, d, s' => by
    cases d <;> simp only [matchPat] <;> intro h
    case const m dargs =>
      split at h
      · exact matchPatList_extends_aux s args dargs s' h
      · simp_all
    all_goals simp_all
  | s, Pattern.int v, d, s' => by
    cases d <;> simp only [matchPat] <;> intro h
    case int w => split at h <;> simp_all
    all_goals simp_all
  | s, Pattern.string v, d, s' => by
    cases d <;> simp only [matchPat] <;> intro h
    case string w => split at h <;> simp_all
    all_goals simp_all
  | s, Pattern.triv, d, s' => by
    cases d <;> simp only [matchPat] <;> intro h <;> simp_all
  | s, Pattern.var y, d, s' => by
    simp only [matchPat]
    cases hy : jsGet s y with
    | some bound =>
      intro h
      obtain ⟨rfl, rfl⟩ := matchPat_ground s bound d s' h
      exact fun x v hx => hx
    | none =>
      intro h x v hx
      obtain rfl : s ++ [(y, some d)] = s' := by simpa using h
      exact jsGet_append_some s _ x v hx

theorem matchPatList_extends_aux : ∀ (s : Subst) (ps : List Pattern) (ds : List Data) (s' : Subst),
    matchPatList s ps ds = some s' → ∀ x v, jsGet s x = some v → jsGet s' x = some v
  | s, [], ds, s' => by
    cases ds <;> simp [matchPatList]
    rintro rfl
    exact fun x v hx => hx
  | s, p :: ps, ds, s' => by
    cases ds with
    | nil => simp [matchPatList]
    | cons d ds =>
      simp only [matchPatList]
      cases hm : matchPat s p d with
      | none => simp
      | some s1 =>
        intro h x v hx
        exact matchPatList_extends_aux s1 ps ds s' h x v (matchPat_extends_aux s p d s1 hm x v hx)
end

mutual
/-- Matching preserves well-formedness of the substitution. -/
theorem matchPat_wf_aux : ∀ (s : Subst) (p : Pattern) (d : Data) (s' : Subst),
    wfSubst s = true → matchPat s p d = some s' → wfSubst s' = true
  | s, Pattern.const n args, d, s' => by
    cases d <;> simp only [matchPat] <;> intro hwf h
    case const m dargs =>
      split at h
      · exact matchPatList_wf_aux s args dargs s' hwf h
      · simp_all
    all_goals simp_all
  | s, Pattern.int v, d, s' => by
    cases d <;> simp only [matchPat] <;> intro hwf h
    case int w => split at h <;> simp_all
    all_goals simp_all
  | s, Pattern.string v, d, s' => by
    cases d <;> simp only [matchPat] <;> intro hwf h
    case string w => split at h <;> simp_all
    all_goals simp_all
  | s, Pattern.triv, d, s' => by
    cases d <;> simp only [matchPat] <;> intro hwf h <;> simp_all
  | s, Pattern.var y, d, s' => by
    simp only [matchPat]
    cases hy : jsGet s y with
    | some bound =>
      intro hwf h
      obtain ⟨rfl, rfl⟩ := matchPat_ground s bound d s' h
      exact hwf
    | none =>
      intro hwf h
      obtain rfl : s ++ [(y, some d)] = s' := by simpa using h
      exact wfSubst_append s y d hwf

theorem matchPatList_wf_aux : ∀ (s : Subst) (ps : List Pattern) (ds : List Data) (s' : Subst),
    wfSubst s = true → matchPatList s ps ds = some s' → wfSubst s' = true
  | s, [], ds, s' => by
    cases ds <;> simp [matchPatList]
    rintro hwf rfl
    exact hwf
  | s, p :: ps, ds, s' => by
    cases ds with
    | nil => simp [matchPatList]
    | cons d ds =>
      simp only [matchPatList]
      cases hm : matchPat s p d with
      | none => simp
      | some s1 =>
        intro hwf h
        exact matchPatList_wf_aux s1 ps ds s' (matchPat_wf_aux s p d s1 hwf hm) h
end

mutual
/-- Application is monotone under extension of the substitution. -/
theorem apply_mono_aux : ∀ (s s' : Subst) (p : Pattern) (d : Data),
    (∀ x v, jsGet s x = some v → jsGet s' x = some v) → apply s p = some d → apply s' p = some d
  | s, s', Pattern.const n args, d => by
    simp only [apply]
    cases ha : applyList s args with
    | none => simp
    | some ds =>
      intro hpre h
      rw [applyList_mono_aux s s' args ds hpre ha]
      exact h
  | s, s', Pattern.int v, d => by simp [apply]
  | s, s', Pattern.string v, d => by simp [apply]
  | s, s', Pattern.triv, d => by simp [apply]
  | s, s', Pattern.var x, d => by
    simp only [apply]
    exact fun hpre h => hpre x d h

theorem applyList_mono_aux : ∀ (s s' : Subst) (ps : List Pattern) (ds : List Data),
    (∀ x v, jsGet s x = some v → jsGet s' x = some v) →
    applyList s ps = some ds → applyList s' ps = some ds
  | s, s', [], ds => by simp [applyList]
  | s, s', p :: ps, ds => by
    simp only [applyList]
    cases ha : apply s p with
    | none => simp
    | some d =>
      cases hl : applyList s ps with
      | none => simp
      | some es =>
        intro hpre h
        rw [apply_mono_aux s s' p d hpre ha, applyList_mono_aux s s' ps es hpre hl]
        exact h
end

mutual
/-- Soundness of matching: a successful match produces a substitution under
which the pattern applies back to exactly the data it was matched against. -/
theorem matchPat_sound_aux : ∀ (s : Subst) (p : Pattern) (d : Data) (s' : Subst),
    wfSubst s = true → matchPat s p d = some s' → apply s' p = some d
  | s, Pattern.const n args, d, s' => by
    cases d <;> simp only [matchPat] <;> intro hwf h
    case const m dargs =>
      split at h
      · rename_i hc
        have := matchPatList_sound_aux s args dargs s' hwf h
        simp [apply, this, hc.1]
      · simp_all
    all_goals simp_all
  | s, Pattern.int v, d, s' => by
    cases d <;> simp only [matchPat] <;> intro hwf h
    case int w => split at h <;> simp_all [apply]
    all_goals simp_all
  | s, Pattern.string v, d, s' => by
    cases d <;> simp only [matchPat] <;> intro hwf h
    case string w => split at h <;> simp_all [apply]
    all_goals simp_all
  | s, Pattern.triv, d, s' => by
    cases d <;> simp only [matchPat] <;> intro hwf h <;> simp_all [apply]
  | s, Pattern.var y, d, s' => by
    simp only [matchPat]
    cases hy : jsGet s y with
    | some bound =>
      intro hwf h
      obtain ⟨rfl, rfl⟩ := matchPat_ground s bound d s' h
      simp [apply, hy]
    | none =>
      intro hwf h
      obtain rfl : s ++ [(y, some d)] = s' := by simpa using h
      simp only [apply]
      exact jsGet_append_fresh s y d hwf hy

theorem matchPatList_sound_aux : ∀ (s : Subst) (ps : List Pattern) (ds : List Data) (s' : Subst),
    wfSubst s = true → matchPatList s ps ds = some s' → applyList s' ps = some ds
  | s, [], ds, s' => by
    cases ds <;> simp [matchPatList, applyList]
  | s, p :: ps, ds, s' => by
    cases ds with
    | nil => simp [matchPatList]
    | cons d ds =>
      simp only [matchPatList]
      cases hm : matchPat s p d with
      | none => simp
      | some s1 =>
        intro hwf h
        have h1 : apply s1 p = some d := matchPat_sound_aux s p d s1 hwf hm
        have hw1 : wfSubst s1 = true := matchPat_wf_aux s p d s1 hwf hm
        have h2 : applyList s' ps = some ds := matchPatList_sound_aux s1 ps ds s' hw1 h
        have hpre := matchPatList_extends_aux s1 ps ds s' h
        simp [applyList, apply_mono_aux s1 s' p d hpre h1, h2]
end

/-- C4: the function equal of terms.ts is claimed to be structural equality
on ground Data, with equal t t = true for every ground term t. The source
instead compares int and string literals with a strict inequality, so equal
on two identical integer literals evaluates to false and on two distinct
integer literals of equal shape to true. -/
theorem equal_int_literal_eval :
    equal (Data.int 1) (Data.int 1) = false ∧ equal (Data.int 1) (Data.int 2) = true := by
  decide

/-- C5: matching is sound with respect to substitution application. For
every substitution of the source's Substitution type (every key maps to
Data, captured by wfSubst), pattern p, and ground data d, a successful
match(subst, p, d) = subst' satisfies apply(subst', p) = d. -/
theorem match_apply_sound (s : Subst) (p : Pattern) (d : Data) (s' : Subst)
    (hwf : wfSubst s = true) (h : matchPat s p d = some s') : apply s' p = some d :=
  matchPat_sound_aux s p d s' hwf h

theorem match_apply_sound_witness :
    apply [(("X" : String), some (Data.int 3))] (Pattern.const "f" [Pattern.var "X"]) =
      some (Data.const "f" [Data.int 3]) :=
  match_apply_sound [] (Pattern.const "f" [Pattern.var "X"]) (Data.const "f" [Data.int 3])
    [(("X" : String), some (Data.int 3))] (by decide)
    (by simp [matchPat, matchPatList, jsGet])

/-- C10: match only extends the substitution it is given. Whenever
match(subst, p, d) succeeds with subst', every variable already bound in
subst keeps exactly its old binding in subst'. -/
theorem match_extends_bindings (s : Subst) (p : Pattern) (d : Data) (s' : Subst)
    (x : String) (v : Data) (h : matchPat s p d = some s')
    (hx : jsGet s x = some v) : jsGet s' x = some v :=
  matchPat_extends_aux s p d s' h x v hx

theorem match_extends_bindings_witness :
    jsGet [(("Y" : String), some (Data.int 7)), (("X" : String), some Data.triv)] "Y" =
      some (Data.int 7) :=
  match_extends_bindings [(("Y" : String), some (Data.int 7))] (Pattern.var "X") Data.triv
    [(("Y" : String), some (Data.int 7)), (("X" : String), some Data.triv)] "Y" (Data.int 7)
    (by simp [matchPat, jsGet]) (by simp [jsGet])

/-- A proposition: relation name, argument patterns, value patterns
(datalog.ts, type Proposition). -/
structure Proposition where
  name : String
  args : List Pattern
  values : List Pattern
deriving DecidableEq

/-- One compiled rule position (datalog.ts, type InternalRule). -/
structure InternalRule where
  name : String
  nextName : List String
  independent : List String
  shared : List String
  new : List String
  premise : Proposition
deriving DecidableEq

/-- A rule terminal: a list of mutually exclusive conclusion propositions
and the exhaustive flag (datalog.ts, type InternalConclusion). -/
structure InternalConclusion where
  mutuallyExclusiveConclusions : List Proposition
  exhaustive : Bool
deriving DecidableEq

/-- A ground fact stored in the database (datalog.ts, interface Fact). -/
structure Fact where
  name : String
  args : List Data
  values : List Data
deriving DecidableEq

/-- A reached rule prefix with its substitution (datalog.ts, interface
PartialRule). -/
structure PartialRule where
  name : String
  args : Subst
deriving DecidableEq

/-- A work-queue entry (datalog.ts, type DbItem). -/
inductive DbItem where
  | fact (f : Fact)
  | partialRule (pr : PartialRule)
deriving DecidableEq

/-- The database: fact store, prefix store, uninteresting set, and FIFO
work queue (datalog.ts, interface Database). -/
structure Database where
  facts : List Fact
  partialRules : List PartialRule
  uninteresting : List Fact
  queue : List DbItem
deriving DecidableEq

/-- Matching a proposition against a stored fact: relation name and both
arities must agree, then args and values are matched pointwise, threading
the substitution (datalog.ts, function matchFact). -/
def matchFact (s : Subst) (prop : Proposition) (f : Fact) : Option Subst :=
  if prop.name = f.name ∧ prop.args.length = f.args.length ∧
      prop.values.length = f.values.length then
    match matchPatList s prop.args f.args with
    | some s1 => matchPatList s1 prop.values f.values
    | none => none
  else none

/-- Grounding a proposition with a substitution; none models the thrown
error of apply on an unbound head variable (datalog.ts, function
applyProposition). -/
def applyProposition (s : Subst) (prop : Proposition) : Option Fact :=
  match applyList s prop.args with
  | some args =>
    match applyList s prop.values with
    | some vals => some { name := prop.name, args := args, values := vals }
    | none => none
  | none => none

/-- The three outcomes of inserting a fact (datalog.ts, return type of
evaluateFactAgainstDatabase). -/
inductive EvalResult where
  | inconsistent
  | redundant
  | extend (db : Database)
deriving DecidableEq

/-- Scan of db.facts: the first stored fact with the same name, the same
arities, and argument lists pointwise related by equal decides the result;
some true = same values pointwise (redundant), some false = different
values (inconsistent), none = no stored fact matched. -/
def evalAgainstFacts (facts : List Fact) (nf : Fact) : Option Bool :=
  match facts with
  | [] => none
  | f :: rest =>
    if f.name = nf.name ∧ f.args.length = nf.args.length ∧
        f.values.length = nf.values.length ∧ equalList f.args nf.args then
      some (equalList f.values nf.values)
    else evalAgainstFacts rest nf

/-- Scan of db.uninteresting: true when some entry matches the new fact on
name, arities, arguments and values (all via equal). -/
def evalAgainstUninteresting (facts : List Fact) (nf : Fact) : Bool :=
  match facts with
  | [] => false
  | f :: rest =>
    if f.name = nf.name ∧ f.args.length = nf.args.length ∧
        f.values.length = nf.values.length ∧ equalList f.args nf.args ∧
        equalList f.values nf.values then
      true
    else evalAgainstUninteresting rest nf

/-- Insertion of a ground fact (datalog.ts, function
evaluateFactAgainstDatabase): consult the fact store, then the
uninteresting store; otherwise extend the database, appending the fact to
the store and to the work queue. -/
def evaluateFactAgainstDatabase (db : Database) (nf : Fact) : EvalResult :=
  match evalAgainstFacts db.facts nf with
  | some true => EvalResult.redundant
  | some false => EvalResult.inconsistent
  | none =>
    if evalAgainstUninteresting db.uninteresting nf then EvalResult.redundant
    else EvalResult.extend
      { db with facts := db.facts ++ [nf], queue := db.queue ++ [DbItem.fact nf] }

/-- Calling equal on two possibly-undefined JS values: accessing .type or
.value of undefined throws, modelled as none. -/
def equalJs (a b : Option Data) : Option Bool :=
  match a, b with
  | some x, some y => some (equal x y)
  | _, _ => none

/-- The shared-variable guard of the Fact branch of step: every shared
variable of the rule must relate the stored prefix binding and the new
substitution under equal; short-circuits on the first false. -/
def sharedCheck (shared : List String) (itemArgs subst : Subst) : Option Bool :=
  match shared with
  | [] => some true
  | v :: vs =>
    match equalJs (jsGet itemArgs v) (jsGet subst v) with
    | none => none
    | some false => some false
    | some true => sharedCheck vs itemArgs subst

/-- The entries check of the deduplication loop of step: every entry of a
stored prefix substitution must relate, via equal, to the candidate
substitution at the same key. -/
def entriesCheck (entries : Subst) (newArgs : Subst) : Option Bool :=
  match entries with
  | [] => some true
  | (v, dataOpt) :: rest =>
    match equalJs (jsGet newArgs v) dataOpt with
    | none => none
    | some false => some false
    | some true => entriesCheck rest newArgs

/-- The duplicate test of the deduplication loop of step: some stored
partial rule has the same prefix name and all its entries relate to the
candidate via equal; short-circuits on the first hit. -/
def dupCheck (items : List PartialRule) (newItem : PartialRule) : Option Bool :=
  match items with
  | [] => some false
  | item :: rest =>
    if newItem.name = item.name then
      match entriesCheck item.args newItem.args with
      | none => none
      | some true => some true
      | some false => dupCheck rest newItem
    else dupCheck rest newItem

/-- The final loop of step: each collected new partial rule is appended to
the prefix store and the queue unless dupCheck reports it present. -/
def insertNewItems (db : Database) (newItems : List PartialRule) : Option Database :=
  match newItems with
  | [] => some db
  | item :: rest =>
    match dupCheck db.partialRules item with
    | none => none
    | some true => insertNewItems db rest
    | some false =>
      insertNewItems
        { db with partialRules := db.partialRules ++ [item],
                  queue := db.queue ++ [DbItem.partialRule item] } rest

/-- The inner fact loop of the PartialRule branch of step: for each stored
fact of the premise relation with matching argument arity, a successful
matchFact contributes one new partial rule per successor name. -/
def factsLoop (rule : InternalRule) (prArgs : Subst) (facts : List Fact) : List PartialRule :=
  match facts with
  | [] => []
  | f :: rest =>
    (if f.name = rule.premise.name ∧ f.args.length = rule.premise.args.length then
      match matchFact prArgs rule.premise f with
      | some ext => rule.nextName.map (fun nx => { name := nx, args := ext })
      | none => []
    else []) ++ factsLoop rule prArgs rest

/-- The PartialRule branch of step: every rule whose name equals the
dequeued prefix name scans the fact store. -/
def partialRuleMatches (rules : List InternalRule) (pr : PartialRule) (facts : List Fact) :
    List PartialRule :=
  match rules with
  | [] => []
  | rule :: rest =>
    (if pr.name = rule.name then factsLoop rule pr.args facts else []) ++
      partialRuleMatches rest pr facts

/-- The independent-variable copy of the Fact branch of step: bindings are
copied from the stored prefix substitution by JS assignment, including an
absent binding copied as an undefined value. -/
def extendIndependent (independent : List String) (itemArgs subst : Subst) : Subst :=
  match independent with
  | [] => subst
  | v :: vs => extendIndependent vs itemArgs (setKey subst v (jsGet itemArgs v))

/-- The inner prefix loop of the Fact branch of step. -/
def partialsLoop (rule : InternalRule) (subst : Subst) (partials : List PartialRule) :
    Option (List PartialRule) :=
  match partials with
  | [] => some []
  | item :: rest =>
    if item.name = rule.name then
      match sharedCheck rule.shared item.args subst with
      | none => none
      | some true =>
        match partialsLoop rule subst rest with
        | some more =>
          some ((rule.nextName.map (fun nx =>
            { name := nx, args := extendIndependent rule.independent item.args subst })) ++ more)
        | none => none
      | some false => partialsLoop rule subst rest
    else partialsLoop rule subst rest

/-- The Fact branch of step: each rule whose premise matches the dequeued
fact extends every stored prefix of that rule passing the shared check. -/
def factMatches (rules : List InternalRule) (f : Fact) (partials : List PartialRule) :
    Option (List PartialRule) :=
  match rules with
  | [] => some []
  | rule :: rest =>
    match matchFact [] rule.premise f with
    | some subst =>
      match partialsLoop rule subst partials with
      | none => none
      | some items =>
        match factMatches rest f partials with
        | some more => some (items ++ more)
        | none => none
    | none => factMatches rest f partials

/-- The conclusions loop of step: each alternative is grounded and probed
against the database popped of its front item; extensions are collected in
order, a redundant alternative sets the flag, an inconsistent one is
dropped. -/
def evalConclusions (db1 : Database) (args : Subst) (props : List Proposition) :
    Option (Bool × List Database) :=
  match props with
  | [] => some (false, [])
  | prop :: props =>
    match applyProposition args prop with
    | none => none
    | some f =>
      match evalConclusions db1 args props with
      | none => none
      | some (flag, dbs) =>
        match evaluateFactAgainstDatabase db1 f with
        | EvalResult.inconsistent => some (flag, dbs)
        | EvalResult.redundant => some (true, dbs)
        | EvalResult.extend db2 => some (flag, db2 :: dbs)

/-- The stepper (datalog.ts, function step): pop the front queue item; a
prefix that reached a terminal enumerates its alternatives and appends the
popped database itself when the flag is set or the terminal is not
exhaustive; otherwise new partial rules are collected from the matching
branch and inserted with deduplication. A none result models a thrown
exception (empty queue, unbound head variable, or an undefined binding
reaching equal). -/
def step (rules : List InternalRule) (concls : String → Option InternalConclusion)
    (db : Database) : Option (List Database) :=
  match db.queue with
  | [] => none
  | current :: rest =>
    let db1 : Database := { db with queue := rest }
    match current with
    | DbItem.partialRule pr =>
      match concls pr.name with
      | some conclusion =>
        match evalConclusions db1 pr.args conclusion.mutuallyExclusiveConclusions with
        | none => none
        | some (flag, dbs) =>
          some (if flag || !conclusion.exhaustive then dbs ++ [db1] else dbs)
      | none =>
        match insertNewItems db1 (partialRuleMatches rules pr db1.facts) with
        | some d => some [d]
        | none => none
    | DbItem.fact f =>
      match factMatches rules f db1.partialRules with
      | none => none
      | some items =>
        match insertNewItems db1 items with
        | some d => some [d]
        | none => none

/-- A database holding the single fact p with no arguments and integer
value 1. -/
def dbReinsert : Database :=
  { facts := [{ name := "p", args := [], values := [Data.int 1] }], partialRules := [],
    uninteresting := [], queue := [] }

/-- The very fact already stored in dbReinsert. -/
def factReinsert : Fact :=
  { name := "p", args := [], values := [Data.int 1] }

/-- C1: the claim says re-inserting a fact that the database already
stores with the same name, argument list, and value list returns
Redundant. The source instead reports inconsistent on this input, because
the stored value list is compared with equal, which evaluates to false on
two identical integer literals. -/
theorem evaluateFact_reinsert_inconsistent :
    evaluateFactAgainstDatabase dbReinsert factReinsert = EvalResult.inconsistent := by
  decide

theorem evalConclusions_all_inconsistent (db1 : Database) (args : Subst)
    (props : List Proposition)
    (h : ∀ prop ∈ props, ∃ f, applyProposition args prop = some f ∧
      evaluateFactAgainstDatabase db1 f = EvalResult.inconsistent) :
    evalConclusions db1 args props = some (false, []) := by
  induction props with
  | nil => rfl
  | cons p ps ih =>
    obtain ⟨f, hf, he⟩ := h p (by simp)
    have hr := ih (fun q hq => h q (by simp [hq]))
    simp [evalConclusions, hf, hr, he]

/-- C2: when the front queue item is a prefix that reached a terminal with
exhaustive = false, every successor list that step returns contains the
no-progress database (the input database with only its front queue item
removed); and when additionally every alternative grounds successfully and
evaluates to inconsistent, step returns exactly the one-element list
holding that no-progress database. -/
theorem step_nonexhaustive_no_progress (rules : List InternalRule)
    (concls : String → Option InternalConclusion) (db : Database) (pr : PartialRule)
    (rest : List DbItem) (c : InternalConclusion)
    (h1 : db.queue = DbItem.partialRule pr :: rest)
    (h2 : concls pr.name = some c)
    (h3 : c.exhaustive = false) :
    (∀ dbs, step rules concls db = some dbs → { db with queue := rest } ∈ dbs) ∧
    ((∀ prop ∈ c.mutuallyExclusiveConclusions, ∃ f, applyProposition pr.args prop = some f ∧
        evaluateFactAgainstDatabase { db with queue := rest } f = EvalResult.inconsistent) →
      step rules concls db = some [{ db with queue := rest }]) := by
  constructor
  · intro dbs hs
    simp only [step, h1, h2] at hs
    cases hev : evalConclusions { db with queue := rest } pr.args
        c.mutuallyExclusiveConclusions with
    | none => simp [hev] at hs
    | some res =>
      obtain ⟨flag, dbs0⟩ := res
      rw [hev] at hs
      simp only [h3, Bool.not_false, Bool.or_true, if_true, Option.some.injEq] at hs
      subst hs
      simp
  · intro hall
    have hev := evalConclusions_all_inconsistent { db with queue := rest } pr.args
      c.mutuallyExclusiveConclusions hall
    simp [step, h1, h2, hev, h3]

/-- The conclusion with the single alternative p = 1 and exhaustive set to
false, registered under prefix name a1. -/
def cOpen : InternalConclusion :=
  { mutuallyExclusiveConclusions := [{ name := "p", args := [], values := [Pattern.int 1] }],
    exhaustive := false }

def conclsOpen : String → Option InternalConclusion := fun n =>
  if n = "a1" then some cOpen else none

/-- A database already storing p = 1 whose front queue item is the prefix
a1 with the empty substitution. -/
def dbOpen : Database :=
  { facts := [{ name := "p", args := [], values := [Data.int 1] }], partialRules := [],
    uninteresting := [],
    queue := [DbItem.partialRule { name := "a1", args := [] }] }

/-- The no-progress database: dbOpen with its front queue item removed. -/
def dbOpenPopped : Database :=
  { facts := [{ name := "p", args := [], values := [Data.int 1] }], partialRules := [],
    uninteresting := [], queue := [] }

theorem step_nonexhaustive_no_progress_witness :
    dbOpenPopped ∈ [dbOpenPopped] ∧
      step [] conclsOpen dbOpen = some [dbOpenPopped] := by
  have h := step_nonexhaustive_no_progress [] conclsOpen dbOpen
    { name := "a1", args := [] } [] cOpen
    (by decide) (by decide) (by decide)
  have hall : ∀ prop ∈ cOpen.mutuallyExclusiveConclusions,
      ∃ f, applyProposition ({ name := "a1", args := [] } : PartialRule).args prop = some f ∧
        evaluateFactAgainstDatabase { dbOpen with queue := [] } f = EvalResult.inconsistent := by
    intro prop hp
    simp only [cOpen, List.mem_singleton] at hp
    subst hp
    exact ⟨{ name := "p", args := [], values := [Data.int 1] }, by decide, by decide⟩
  have h2 := h.2 hall
  refine ⟨?_, ?_⟩
  · have := h.1 [{ dbOpen with queue := [] }] h2
    simpa [dbOpen, dbOpenPopped] using this
  · simpa [dbOpen, dbOpenPopped] using h2

/-- C3: when the front queue item is a prefix that reached a terminal with
exhaustive = true and every alternative grounds successfully and evaluates
to inconsistent (so none is redundant), step returns the empty list: the
database is closed as contradictory. -/
theorem step_exhaustive_all_inconsistent (rules : List InternalRule)
    (concls : String → Option InternalConclusion) (db : Database) (pr : PartialRule)
    (rest : List DbItem) (c : InternalConclusion)
    (h1 : db.queue = DbItem.partialRule pr :: rest)
    (h2 : concls pr.name = some c)
    (h3 : c.exhaustive = true)
    (hall : ∀ prop ∈ c.mutuallyExclusiveConclusions, ∃ f,
      applyProposition pr.args prop = some f ∧
      evaluateFactAgainstDatabase { db with queue := rest } f = EvalResult.inconsistent) :
    step rules concls db = some [] := by
  have hev := evalConclusions_all_inconsistent { db with queue := rest } pr.args
    c.mutuallyExclusiveConclusions hall
  simp [step, h1, h2, hev, h3]

/-- The conclusion with the single alternative p = 1 and exhaustive set to
true, registered under prefix name a1. -/
def cClosed : InternalConclusion :=
  { mutuallyExclusiveConclusions := [{ name := "p", args := [], values := [Pattern.int 1] }],
    exhaustive := true }

def conclsClosed : String → Option InternalConclusion := fun n =>
  if n = "a1" then some cClosed else none

theorem step_exhaustive_all_inconsistent_witness :
    step [] conclsClosed dbOpen = some [] := by
  apply step_exhaustive_all_inconsistent [] conclsClosed dbOpen
    { name := "a1", args := [] } [] cClosed
    (by decide) (by decide) (by decide)
  intro prop hp
  simp only [cClosed, List.mem_singleton] at hp
  subst hp
  exact ⟨{ name := "p", args := [], values := [Data.int 1] }, by decide, by decide⟩

/-- Equality of substitutions in the sense of the specified invariant:
same key set and pointwise equal Data, expressed extensionally through
lookups at the keys of either side. -/
def substEquiv (a b : Subst) : Bool :=
  a.all (fun e => jsGet a e.1 == jsGet b e.1) && b.all (fun e => jsGet a e.1 == jsGet b e.1)

/-- Two stored partial rules with the same prefix name and equivalent
substitutions exist in the list. -/
def hasDupPartialRule (items : List PartialRule) : Bool :=
  match items with
  | [] => false
  | item :: rest =>
    rest.any (fun other => item.name == other.name && substEquiv item.args other.args) ||
      hasDupPartialRule rest

/-- The single rule of the duplicate-insertion example: prefix a1 matches
edge X and forwards to prefix a2. -/
def ruleDup : InternalRule :=
  { name := "a1", nextName := ["a2"], independent := [], shared := [], new := [],
    premise := { name := "edge", args := [Pattern.var "X"], values := [] } }

/-- The seed prefix a1 with the empty substitution. -/
def prDupSeed : PartialRule := { name := "a1", args := [] }

/-- The prefix a2 with X bound to the integer 1, already stored. -/
def prDupStored : PartialRule := { name := "a2", args := [(("X" : String), some (Data.int 1))] }

/-- A conclusion table with no entries. -/
def conclsNone : String → Option InternalConclusion := fun _ => none

/-- The duplicate-insertion example database: it stores the fact edge 1,
the seed prefix a1, and the already-derived prefix a2 with X bound to 1;
the front queue item is the seed prefix. Its prefix store holds no two
entries with the same name and equivalent substitutions. -/
def dbDup : Database :=
  { facts := [{ name := "edge", args := [Data.int 1], values := [] }],
    partialRules := [prDupSeed, prDupStored], uninteresting := [],
    queue := [DbItem.partialRule prDupSeed] }

/-- C6: the claim says step preserves the invariant that no two stored
partial-rule entries share a prefix name and an equivalent substitution.
On dbDup, whose prefix store satisfies the invariant, processing the seed
prefix re-derives exactly the stored substitution X bound to 1 for prefix
a2, yet the deduplication test fails to recognise it (equal on two copies
of the integer 1 evaluates to false), so the result stores the entry a
second time and the invariant is broken. -/
theorem step_dedup_invariant_broken :
    hasDupPartialRule dbDup.partialRules = false ∧
    step [ruleDup] conclsNone dbDup =
      some [{ facts := [{ name := "edge", args := [Data.int 1], values := [] }],
              partialRules := [prDupSeed, prDupStored, prDupStored], uninteresting := [],
              queue := [DbItem.partialRule prDupStored] }] ∧
    hasDupPartialRule [prDupSeed, prDupStored, prDupStored] = true := by
  refine ⟨by decide, ?_, by decide⟩
  simp [step, partialRuleMatches, factsLoop, matchFact, matchPatList, matchPat, jsGet,
    insertNewItems, dupCheck, entriesCheck, equalJs, equal, ruleDup, prDupSeed, prDupStored,
    dbDup, conclsNone]

/-- Modelled from the spec: the premise of a compiled rule position in the
later datalog revision, which is absent from the sources (only its callers
and test programs are present); it is either a proposition to match or an
inequality between two patterns (spec section 3, InternalPartialRule). -/
inductive SpecPremise where
  | prop (p : Proposition)
  | ineq (a : Pattern) (b : Pattern)
deriving DecidableEq

/-- Modelled from the spec: a compiled rule position of the later datalog
revision: premise, shared variables, and the non-empty list of successor
position names (spec section 3, InternalPartialRule). -/
structure InternalPartialRule where
  next : List String
  shared : List String
  premise : SpecPremise
deriving DecidableEq

/-- Modelled from the spec: a work-queue entry of the later datalog
revision (spec section 3: FactItem or PrefixItem). -/
inductive SpecItem where
  | factItem (f : Fact)
  | prefixItem (name : String) (args : Subst)
deriving DecidableEq

/-- Modelled from the spec: the prefix store and work queue of the later
datalog revision's database (spec section 3); only the parts the
inequality step touches are carried. -/
structure SpecDatabase where
  prefixes : List (String × List Subst)
  queue : List SpecItem
deriving DecidableEq

/-- Lookup of the substitution set stored for a prefix name (an absent
entry stores the empty set). -/
def lookupPrefixes (l : List (String × List Subst)) (n : String) : List Subst :=
  match l with
  | [] => []
  | (k, v) :: rest => if k = n then v else lookupPrefixes rest n

/-- Update of the substitution set stored for a prefix name. -/
def setPrefixesEntry (l : List (String × List Subst)) (n : String) (v : List Subst) :
    List (String × List Subst) :=
  match l with
  | [] => [(n, v)]
  | (k, w) :: rest => if k = n then (k, v) :: rest else (k, w) :: setPrefixesEntry rest n v

/-- Modelled from the spec: extend_prefix of the later datalog revision
(spec section 4.2): if an equivalent substitution is already stored under
the prefix name, the database is returned unchanged; otherwise the
substitution is stored and a PrefixItem enqueued. -/
def extendPrefixStore (db : SpecDatabase) (name : String) (subst : Subst) : SpecDatabase :=
  if (lookupPrefixes db.prefixes name).any (fun s => substEquiv s subst) then db
  else
    { prefixes := setPrefixesEntry db.prefixes name (lookupPrefixes db.prefixes name ++ [subst]),
      queue := db.queue ++ [SpecItem.prefixItem name subst] }

/-- Modelled from the spec: the step case for a dequeued PrefixItem whose
rule premise is an Inequality, from the later datalog revision absent from
the sources (spec section 4.4, case 3): ground both sides with the current
substitution; if they differ structurally, extend every successor prefix
with the unchanged substitution, otherwise extend nothing. A none result
models the thrown error on an unbound variable. -/
def stepPrefixIneq (next : List String) (a b : Pattern) (subst : Subst)
    (db : SpecDatabase) : Option SpecDatabase :=
  match apply subst a, apply subst b with
  | some va, some vb =>
    if va = vb then some db
    else some (next.foldl (fun d q => extendPrefixStore d q subst) db)
  | _, _ => none

theorem substEquiv_refl (s : Subst) : substEquiv s s = true := by
  simp [substEquiv, List.all_eq_true]

theorem lookupPrefixes_set_same (l : List (String × List Subst)) (n : String)
    (v : List Subst) : lookupPrefixes (setPrefixesEntry l n v) n = v := by
  induction l with
  | nil => simp [lookupPrefixes, setPrefixesEntry]
  | cons e rest ih =>
    obtain ⟨k, w⟩ := e
    by_cases hk : k = n <;> simp [lookupPrefixes, setPrefixesEntry, hk, ih]

theorem lookupPrefixes_set_other (l : List (String × List Subst)) (n m : String)
    (v : List Subst) (h : m ≠ n) :
    lookupPrefixes (setPrefixesEntry l n v) m = lookupPrefixes l m := by
  have hnm : n ≠ m := fun hc => h hc.symm
  induction l with
  | nil => simp [lookupPrefixes, setPrefixesEntry, hnm]
  | cons e rest ih =>
    obtain ⟨k, w⟩ := e
    by_cases hk : k = n
    · subst hk
      have hkm : k ≠ m := hnm
      simp [lookupPrefixes, setPrefixesEntry, hkm]
    · by_cases hm : k = m
      · subst hm
        simp [lookupPrefixes, setPrefixesEntry, hk, h]
      · simp [lookupPrefixes, setPrefixesEntry, hk, hm, ih]

theorem extendPrefixStore_get_self (db : SpecDatabase) (n : String) (subst : Subst) :
    lookupPrefixes (extendPrefixStore db n subst).prefixes n =
      (if (lookupPrefixes db.prefixes n).any (fun s => substEquiv s subst) then
        lookupPrefixes db.prefixes n
      else lookupPrefixes db.prefixes n ++ [subst]) := by
  by_cases h : (lookupPrefixes db.prefixes n).any (fun s => substEquiv s subst) <;>
    simp [extendPrefixStore, h, lookupPrefixes_set_same]

theorem extendPrefixStore_get_other (db : SpecDatabase) (n m : String) (subst : Subst)
    (h : m ≠ n) :
    lookupPrefixes (extendPrefixStore db n subst).prefixes m = lookupPrefixes db.prefixes m := by
  by_cases hc : (lookupPrefixes db.prefixes n).any (fun s => substEquiv s subst) <;>
    simp [extendPrefixStore, hc, lookupPrefixes_set_other _ _ _ _ h]

theorem extendPrefixStore_present (db : SpecDatabase) (n : String) (subst : Subst) :
    (lookupPrefixes (extendPrefixStore db n subst).prefixes n).any
      (fun s => substEquiv s subst) = true := by
  rw [extendPrefixStore_get_self]
  by_cases h : (lookupPrefixes db.prefixes n).any (fun s => substEquiv s subst)
  · simpa [h] using h
  · simp [h, List.any_append, substEquiv_refl]

theorem foldl_extendPrefixStore_get (next : List String) (subst : Subst) (q : String) :
    ∀ db : SpecDatabase,
      (q ∈ next →
        lookupPrefixes (next.foldl (fun d r => extendPrefixStore d r subst) db).prefixes q =
          (if (lookupPrefixes db.prefixes q).any (fun s => substEquiv s subst) then
            lookupPrefixes db.prefixes q
          else lookupPrefixes db.prefixes q ++ [subst])) ∧
      (q ∉ next →
        lookupPrefixes (next.foldl (fun d r => extendPrefixStore d r subst) db).prefixes q =
          lookupPrefixes db.prefixes q) := by
  induction next with
  | nil => simp
  | cons r rest ih =>
    intro db
    simp only [List.foldl_cons]
    constructor
    · intro hq
      by_cases hr : q = r
      · subst hr
        by_cases hrest : q ∈ rest
        · rw [(ih (extendPrefixStore db q subst)).1 hrest]
          rw [if_pos (extendPrefixStore_present db q subst)]
          exact extendPrefixStore_get_self db q subst
        · rw [(ih (extendPrefixStore db q subst)).2 hrest]
          exact extendPrefixStore_get_self db q subst
      · have hrest : q ∈ rest := by
          cases List.mem_cons.mp hq with
          | inl h => exact absurd h hr
          | inr h => exact h
        rw [(ih (extendPrefixStore db r subst)).1 hrest,
          extendPrefixStore_get_other db r q subst hr]
    · intro hq
      have hr : q ≠ r := fun h => hq (by simp [h])
      have hrest : q ∉ rest := fun h => hq (by simp [h])
      rw [(ih (extendPrefixStore db r subst)).2 hrest,
        extendPrefixStore_get_other db r q subst hr]

/-- C8: the inequality step compares the two grounded sides structurally.
On equal ground terms it produces no successor substitution (the database
is returned unchanged); on different ground terms it extends every
successor prefix with exactly the one unchanged substitution (added once,
and skipped where an equivalent substitution is already stored), leaving
every other prefix untouched. -/
theorem stepPrefixIneq_spec (next : List String) (a b : Pattern) (subst : Subst)
    (db db' : SpecDatabase) (va vb : Data) (q : String)
    (ha : apply subst a = some va) (hb : apply subst b = some vb)
    (hs : stepPrefixIneq next a b subst db = some db') :
    (va = vb → db' = db) ∧
    (va ≠ vb →
      (q ∈ next → lookupPrefixes db'.prefixes q =
        (if (lookupPrefixes db.prefixes q).any (fun s => substEquiv s subst) then
          lookupPrefixes db.prefixes q
        else lookupPrefixes db.prefixes q ++ [subst])) ∧
      (q ∉ next → lookupPrefixes db'.prefixes q = lookupPrefixes db.prefixes q)) := by
  simp only [stepPrefixIneq, ha, hb] at hs
  constructor
  · intro hv
    rw [if_pos hv] at hs
    exact (Option.some.injEq _ _ ▸ hs).symm
  · intro hv
    rw [if_neg hv] at hs
    have hd : db' = next.foldl (fun d r => extendPrefixStore d r subst) db :=
      (Option.some.injEq _ _ ▸ hs).symm
    subst hd
    exact foldl_extendPrefixStore_get next subst q db

/-- The substitution binding X to the integer 0. -/
def substIneq : Subst := [(("X" : String), some (Data.int 0))]

/-- The empty prefix store and queue. -/
def dbIneq : SpecDatabase := { prefixes := [], queue := [] }

/-- The database after the inequality step extended prefix q1. -/
def dbIneqOut : SpecDatabase :=
  { prefixes := [(("q1" : String), [substIneq])],
    queue := [SpecItem.prefixItem "q1" substIneq] }

theorem stepPrefixIneq_spec_witness :
    stepPrefixIneq ["q1"] (Pattern.var "X") (Pattern.int 0) substIneq dbIneq = some dbIneq ∧
      lookupPrefixes dbIneqOut.prefixes "q1" = [substIneq] := by
  constructor
  · decide
  · have h := stepPrefixIneq_spec ["q1"] (Pattern.var "X") (Pattern.int 1) substIneq
      dbIneq dbIneqOut (Data.int 0) (Data.int 1) "q1"
      (by decide) (by decide) (by decide)
    have h2 := (h.2 (by decide)).1 (by simp)
    simpa [dbIneq, lookupPrefixes] using h2

/-- The character class of the JS regex [a-z] (ASCII codes 97 to 122). -/
def isLowerChar (c : Char) : Bool := 97 ≤ c.toNat && c.toNat ≤ 122

/-- The character class of the JS regex [A-Z] (ASCII codes 65 to 90). -/
def isUpperChar (c : Char) : Bool := 65 ≤ c.toNat && c.toNat ≤ 90

/-- The character class of the JS regex [0-9] (ASCII codes 48 to 57). -/
def isDigitChar (c : Char) : Bool := 48 ≤ c.toNat && c.toNat ≤ 57

/-- The character class of the JS regex [0-9a-zA-Z], the token class of
parseTerm. -/
def isAlnumChar (c : Char) : Bool := isDigitChar c || isUpperChar c || isLowerChar c

/-- ASCII whitespace recognised by trimStart (space, tab, newline,
carriage return). -/
def isWsChar (c : Char) : Bool := c.toNat = 32 || c.toNat = 9 || c.toNat = 10 || c.toNat = 13

/-- The trimStart calls of parseTerm. -/
def trimStart (s : List Char) : List Char := s.dropWhile isWsChar

/-- The decimal digit character for a value below ten. -/
def digitCharFn (d : Nat) : Char := Char.ofNat (48 + d)

/-- Fuelled most-significant-first decimal digit emission. -/
def natToDigitsF : Nat → Nat → List Char → List Char
  | 0, _, acc => acc
  | fuel + 1, n, acc =>
    if n < 10 then digitCharFn n :: acc
    else natToDigitsF fuel (n / 10) (digitCharFn (n % 10) :: acc)

/-- The canonical decimal representation of a natural number, as printed
by JS number-to-string conversion. -/
def natDecimal (n : Nat) : List Char := natToDigitsF (n + 1) n []

/-- The characters of the JS template interpolation of an integer. -/
def intChars (v : Int) : List Char :=
  if v < 0 then '-' :: natDecimal v.natAbs else natDecimal v.toNat

mutual
/-- Printing of a term (terms.ts, function termToString): a constructor
without arguments prints bare, one with arguments prints parenthesised
with space-separated arguments; integers print in decimal, strings
print between double quotes, the unit value prints as a parenthesis pair,
variables print bare. -/
def termToString : Pattern → List Char
  | Pattern.const n args =>
    match args with
    | [] => n.data
    | _ :: _ => '(' :: (n.data ++ argsToString args) ++ [')']
  | Pattern.int v => intChars v
  | Pattern.string v => '"' :: v.data ++ ['"']
  | Pattern.triv => ['(', ')']
  | Pattern.var n => n.data

/-- The space-joined argument part of a parenthesised constructor print:
one space before each printed argument. -/
def argsToString : List Pattern → List Char
  | [] => []
  | p :: ps => ' ' :: termToString p ++ argsToString ps
end

/-- Numeric value of a digit token, most significant digit first (the
parseInt of the source on an all-digit token). -/
def digitsVal (cs : List Char) : Nat := cs.foldl (fun a c => 10 * a + (c.toNat - 48)) 0

theorem natToDigitsF_eq_natDecimal :
    ∀ n : Nat, ∀ fuel acc, n < fuel → natToDigitsF fuel n acc = natDecimal n ++ acc := by
  intro n
  induction n using Nat.strong_induction_on with
  | _ n ih =>
    intro fuel acc hf
    obtain ⟨f, rfl⟩ : ∃ f, fuel = f + 1 := ⟨fuel - 1, by omega⟩
    by_cases h10 : n < 10
    · simp [natToDigitsF, natDecimal, h10]
    · have hdiv : n / 10 < n := Nat.div_lt_self (by omega) (by omega)
      have hstep : ∀ g a, n < g + 1 →
          natToDigitsF (g + 1) n a = natDecimal (n / 10) ++ digitCharFn (n % 10) :: a := by
        intro g a hg
        simp only [natToDigitsF, if_neg h10]
        exact ih (n / 10) (by omega) g (digitCharFn (n % 10) :: a) (by omega)
      rw [hstep f acc hf]
      have hn : natDecimal n = natDecimal (n / 10) ++ [digitCharFn (n % 10)] := by
        show natToDigitsF (n + 1) n [] = _
        rw [hstep n [] (by omega)]
      rw [hn]
      simp

theorem natDecimal_unfold_ge_ten (n : Nat) (h : 10 ≤ n) :
    natDecimal n = natDecimal (n / 10) ++ [digitCharFn (n % 10)] := by
  rw [natDecimal]
  simp only [natToDigitsF, if_neg (by omega : ¬ n < 10)]
  exact natToDigitsF_eq_natDecimal (n / 10) n _ (by exact Nat.div_lt_self (by omega) (by omega))

theorem natDecimal_lt_ten (n : Nat) (h : n < 10) : natDecimal n = [digitCharFn n] := by
  simp [natDecimal, natToDigitsF, h]

theorem digitCharFn_toNat (d : Nat) (h : d < 10) : (digitCharFn d).toNat = 48 + d := by
  interval_cases d <;> decide

theorem isDigitChar_digitCharFn (d : Nat) (h : d < 10) : isDigitChar (digitCharFn d) = true := by
  interval_cases d <;> decide

theorem natDecimal_all_digit (n : Nat) : (natDecimal n).all isDigitChar = true := by
  induction n using Nat.strong_induction_on with
  | _ n ih =>
    by_cases h10 : n < 10
    · rw [natDecimal_lt_ten n h10]
      simp [isDigitChar_digitCharFn n h10]
    · rw [natDecimal_unfold_ge_ten n (by omega)]
      have hdiv : n / 10 < n := Nat.div_lt_self (by omega) (by omega)
      simp [List.all_append, ih (n / 10) hdiv,
        isDigitChar_digitCharFn (n % 10) (Nat.mod_lt n (by omega))]

theorem natDecimal_head_digit (n : Nat) :
    ∃ c t, natDecimal n = c :: t ∧ isDigitChar c = true := by
  induction n using Nat.strong_induction_on with
  | _ n ih =>
    by_cases h10 : n < 10
    · exact ⟨digitCharFn n, [], natDecimal_lt_ten n h10, isDigitChar_digitCharFn n h10⟩
    · have hdiv : n / 10 < n := Nat.div_lt_self (by omega) (by omega)
      obtain ⟨c, t, hct, hc⟩ := ih (n / 10) hdiv
      exact ⟨c, t ++ [digitCharFn (n % 10)], by
        rw [natDecimal_unfold_ge_ten n (by omega), hct]
        simp, hc⟩

theorem digitsVal_fold (n : Nat) :
    ∀ a : Nat, (natDecimal n).foldl (fun a c => 10 * a + (c.toNat - 48)) a =
      a * 10 ^ (natDecimal n).length + n := by
  induction n using Nat.strong_induction_on with
  | _ n ih =>
    intro a
    by_cases h10 : n < 10
    · rw [natDecimal_lt_ten n h10]
      simp [List.foldl, digitCharFn_toNat n h10]
      ring
    · have hdiv : n / 10 < n := Nat.div_lt_self (by omega) (by omega)
      rw [natDecimal_unfold_ge_ten n (by omega)]
      rw [List.foldl_append, ih (n / 10) hdiv a]
      have hmod : n % 10 < 10 := Nat.mod_lt n (by omega)
      simp [List.foldl, digitCharFn_toNat (n % 10) hmod, List.length_append]
      have : 10 * (a * 10 ^ (natDecimal (n / 10)).length + n / 10) + n % 10 =
          a * (10 ^ (natDecimal (n / 10)).length * 10) + (10 * (n / 10) + n % 10) := by ring
      rw [this, Nat.div_add_mod]
      ring_nf

theorem digitsVal_natDecimal (n : Nat) : digitsVal (natDecimal n) = n := by
  rw [digitsVal, digitsVal_fold n 0]
  simp

theorem natDecimal_ne_nil (n : Nat) : natDecimal n ≠ [] := by
  obtain ⟨c, t, hct, _⟩ := natDecimal_head_digit n
  simp [hct]

theorem char_toNat_ne (c d : Char) (h : c.toNat ≠ d.toNat) : c ≠ d := by
  intro hc
  exact h (hc ▸ rfl)

theorem isLowerChar_props (c : Char) (h : isLowerChar c = true) :
    isUpperChar c = false ∧ isDigitChar c = false ∧ isAlnumChar c = true ∧
      isWsChar c = false ∧ c ≠ '"' ∧ c ≠ '(' ∧ c ≠ ')' := by
  simp only [isLowerChar, Bool.and_eq_true, decide_eq_true_eq] at h
  refine ⟨?_, ?_, ?_, ?_, ?_, ?_, ?_⟩
  · simp only [isUpperChar, Bool.and_eq_false_iff, decide_eq_false_iff_not]
    omega
  · simp only [isDigitChar, Bool.and_eq_false_iff, decide_eq_false_iff_not]
    omega
  · simp only [isAlnumChar, isLowerChar, Bool.or_eq_true, Bool.and_eq_true, decide_eq_true_eq]
    omega
  · simp only [isWsChar, Bool.or_eq_false_iff, decide_eq_false_iff_not]
    omega
  · exact char_toNat_ne c _ (by simpa using by omega)
  · exact char_toNat_ne c _ (by simpa using by omega)
  · exact char_toNat_ne c _ (by simpa using by omega)

theorem isUpperChar_props (c : Char) (h : isUpperChar c = true) :
    isDigitChar c = false ∧ isAlnumChar c = true ∧ isWsChar c = false ∧
      c ≠ '"' ∧ c ≠ '(' ∧ c ≠ ')' := by
  simp only [isUpperChar, Bool.and_eq_true, decide_eq_true_eq] at h
  refine ⟨?_, ?_, ?_, ?_, ?_, ?_⟩
  · simp only [isDigitChar, Bool.and_eq_false_iff, decide_eq_false_iff_not]
    omega
  · simp only [isAlnumChar, isUpperChar, isDigitChar, isLowerChar, Bool.or_eq_true,
      Bool.and_eq_true, decide_eq_true_eq]
    omega
  · simp only [isWsChar, Bool.or_eq_false_iff, decide_eq_false_iff_not]
    omega
  · exact char_toNat_ne c _ (by simpa using by omega)
  · exact char_toNat_ne c _ (by simpa using by omega)
  · exact char_toNat_ne c _ (by simpa using by omega)

theorem isDigitChar_props (c : Char) (h : isDigitChar c = true) :
    isUpperChar c = false ∧ isAlnumChar c = true ∧ isWsChar c = false ∧
      c ≠ '"' ∧ c ≠ '(' ∧ c ≠ ')' := by
  simp only [isDigitChar, Bool.and_eq_true, decide_eq_true_eq] at h
  refine ⟨?_, ?_, ?_, ?_, ?_, ?_⟩
  · simp only [isUpperChar, Bool.and_eq_false_iff, decide_eq_false_iff_not]
    omega
  · simp only [isAlnumChar, isUpperChar, isDigitChar, isLowerChar, Bool.or_eq_true,
      Bool.and_eq_true, decide_eq_true_eq]
    omega
  · simp only [isWsChar, Bool.or_eq_false_iff, decide_eq_false_iff_not]
    omega
  · exact char_toNat_ne c _ (by simpa using by omega)
  · exact char_toNat_ne c _ (by simpa using by omega)
  · exact char_toNat_ne c _ (by simpa using by omega)

/-- Result of one parseTerm call (terms.ts, function parseTerm): err is a
thrown parse error, nothing is the null return (no term begins here),
found carries the parsed pattern and the trimmed remainder, out is fuel
exhaustion (unreachable at the fuel parseTerm supplies). -/
inductive TOut where
  | err
  | nothing
  | found (p : Pattern) (rest : List Char)
  | out
deriving DecidableEq

/-- Result of the argument-collection loop of the constructor branch. -/
inductive AOut where
  | err
  | ok (ps : List Pattern) (rest : List Char)
  | out
deriving DecidableEq

mutual
/-- Fuelled embedding of parseTerm (terms.ts): a leading double quote
scans to the next quote (error when unmatched); a leading parenthesis
parses the unit value or one parenthesised term; otherwise the maximal
alphanumeric token is read and dispatched on its first character
(uppercase variable, digit canonically-checked integer, lowercase
constructor applied to as many following terms as parse). Each token is
followed by trimStart. -/
def parseTermF : Nat → List Char → TOut
  | 0, _ => TOut.out
  | fuel + 1, s =>
    match s with
    | [] => TOut.nothing
    | c :: s1 =>
      if c = '"' then
        match s1.dropWhile (fun x => x != '"') with
        | [] => TOut.err
        | _ :: s2 =>
          TOut.found (Pattern.string (String.mk (s1.takeWhile (fun x => x != '"'))))
            (trimStart s2)
      else if c = '(' then
        match s1 with
        | ')' :: s2 => TOut.found Pattern.triv (trimStart s2)
        | _ =>
          match parseTermF fuel s1 with
          | TOut.found p r1 =>
            match r1 with
            | ')' :: r2 => TOut.found p (trimStart r2)
            | _ => TOut.err
          | TOut.nothing => TOut.err
          | TOut.err => TOut.err
          | TOut.out => TOut.out
      else
        match (c :: s1).takeWhile isAlnumChar with
        | [] => TOut.nothing
        | t0 :: ts =>
          if isUpperChar t0 then
            TOut.found (Pattern.var (String.mk (t0 :: ts)))
              (trimStart ((c :: s1).drop (t0 :: ts).length))
          else if isDigitChar t0 then
            if natDecimal (digitsVal ((t0 :: ts).takeWhile isDigitChar)) = t0 :: ts then
              TOut.found (Pattern.int (Int.ofNat (digitsVal ((t0 :: ts).takeWhile isDigitChar))))
                (trimStart ((c :: s1).drop (t0 :: ts).length))
            else TOut.err
          else
            match parseArgsF fuel (trimStart ((c :: s1).drop (t0 :: ts).length)) with
            | AOut.ok args r2 => TOut.found (Pattern.const (String.mk (t0 :: ts)) args) r2
            | AOut.err => TOut.err
            | AOut.out => TOut.out

/-- The while loop collecting constructor arguments: parse terms until one
call returns null; a thrown error propagates. -/
def parseArgsF : Nat → List Char → AOut
  | 0, _ => AOut.out
  | fuel + 1, s =>
    match parseTermF fuel s with
    | TOut.nothing => AOut.ok [] s
    | TOut.found p r =>
      match parseArgsF fuel r with
      | AOut.ok ps r2 => AOut.ok (p :: ps) r2
      | other => other
    | TOut.err => AOut.err
    | TOut.out => AOut.out
end

/-- The parseTerm entry point, at a fuel sufficient for any input. -/
def parseTerm (s : List Char) : TOut := parseTermF (2 * s.length + 2) s

/-- The parsePattern entry point (terms.ts): a null parse or a non-empty
remainder is an error. -/
def parsePattern (s : List Char) : Option Pattern :=
  match parseTerm s with
  | TOut.found p [] => some p
  | _ => none

/-- A pattern whose printed form cannot swallow a following bare token:
everything except a constructor with no arguments. -/
def selfDelim : Pattern → Bool
  | Pattern.const _ [] => false
  | _ => true

/-- A constructor name of the surface syntax: one lowercase letter then
alphanumerics. -/
def lowerName (n : String) : Bool :=
  match n.data with
  | [] => false
  | c :: rest => isLowerChar c && rest.all isAlnumChar

/-- A variable name of the surface syntax: one uppercase letter then
alphanumerics. -/
def upperName (n : String) : Bool :=
  match n.data with
  | [] => false
  | c :: rest => isUpperChar c && rest.all isAlnumChar

mutual
/-- The conditions of the round-trip claim on a pattern: constructor names
lowercase alphanumeric, variable names uppercase alphanumeric, integer
literals non-negative, string literals free of double quotes. -/
def wfPatOrig : Pattern → Bool
  | Pattern.const n args => lowerName n && wfArgsOrig args
  | Pattern.int v => decide (0 ≤ v)
  | Pattern.string v => v.data.all (fun c => c != '"')
  | Pattern.var n => upperName n
  | Pattern.triv => true

def wfArgsOrig : List Pattern → Bool
  | [] => true
  | a :: rest => wfPatOrig a && wfArgsOrig rest
end

mutual
/-- The amended round-trip conditions: the conditions of the claim plus
the restriction that no constructor argument other than the last is a
zero-argument constructor. -/
def wfPat : Pattern → Bool
  | Pattern.const n args => lowerName n && wfArgs args
  | Pattern.int v => decide (0 ≤ v)
  | Pattern.string v => v.data.all (fun c => c != '"')
  | Pattern.var n => upperName n
  | Pattern.triv => true

def wfArgs : List Pattern → Bool
  | [] => true
  | [a] => wfPat a
  | a :: rest => wfPat a && selfDelim a && wfArgs rest
end

/-- The remainders after which any printed token stops: empty, a space, or
a closing parenthesis. -/
def isDelim (r : List Char) : Bool :=
  match r with
  | [] => true
  | c :: _ => c = ' ' || c = ')'

/-- The remainders after which even a bare zero-argument constructor
stops: empty or a closing parenthesis. -/
def isStopper (r : List Char) : Bool :=
  match r with
  | [] => true
  | c :: _ => c = ')'

/-- The argument zone of a printed constructor application: printed
arguments joined by single spaces. -/
def argSeqChars : List Pattern → List Char
  | [] => []
  | [a] => termToString a
  | a :: rest => termToString a ++ ' ' :: argSeqChars rest

theorem takeWhile_append_exact (p : Char → Bool) :
    ∀ xs ys : List Char, xs.all p = true → (∀ y t, ys = y :: t → p y = false) →
      (xs ++ ys).takeWhile p = xs := by
  intro xs
  induction xs with
  | nil =>
    intro ys _ hy
    cases ys with
    | nil => rfl
    | cons y t => simp [List.takeWhile, hy y t rfl]
  | cons x xs ih =>
    intro ys hx hy
    simp only [List.all_cons, Bool.and_eq_true] at hx
    simp [List.takeWhile, hx.1, ih ys hx.2 hy]

theorem dropWhile_append_exact (p : Char → Bool) :
    ∀ xs ys : List Char, xs.all p = true → (∀ y t, ys = y :: t → p y = false) →
      (xs ++ ys).dropWhile p = ys := by
  intro xs
  induction xs with
  | nil =>
    intro ys _ hy
    cases ys with
    | nil => rfl
    | cons y t => simp [List.dropWhile, hy y t rfl]
  | cons x xs ih =>
    intro ys hx hy
    simp only [List.all_cons, Bool.and_eq_true] at hx
    simp [List.dropWhile, hx.1, ih ys hx.2 hy]

theorem takeWhile_all (p : Char → Bool) (xs : List Char) (hx : xs.all p = true) :
    xs.takeWhile p = xs := by
  have := takeWhile_append_exact p xs [] hx (by intro y t h; cases h)
  simpa using this

theorem drop_append_length (xs ys : List Char) : (xs ++ ys).drop xs.length = ys := by
  induction xs with
  | nil => rfl
  | cons x xs ih => simpa using ih

theorem trimStart_not_ws (s : List Char)
    (h : ∀ c t, s = c :: t → isWsChar c = false) : trimStart s = s := by
  cases s with
  | nil => rfl
  | cons c t => simp [trimStart, List.dropWhile, h c t rfl]

theorem trimStart_space (t : List Char) : trimStart (' ' :: t) = trimStart t := by
  simp [trimStart, List.dropWhile, show isWsChar ' ' = true by decide]

theorem isStopper_not_ws (r : List Char) (h : isStopper r = true) :
    ∀ c t, r = c :: t → isWsChar c = false := by
  intro c t hct
  subst hct
  simp only [isStopper, Bool.or_eq_true, decide_eq_true_eq] at h
  subst h
  decide

theorem trimStart_stopper (r : List Char) (h : isStopper r = true) : trimStart r = r :=
  trimStart_not_ws r (isStopper_not_ws r h)

theorem isStopper_isDelim (r : List Char) (h : isStopper r = true) : isDelim r = true := by
  cases r with
  | nil => rfl
  | cons c t =>
    simp only [isStopper, decide_eq_true_eq] at h
    simp [isDelim, h]

theorem isDelim_not_alnum (r : List Char) (h : isDelim r = true) :
    ∀ y t, r = y :: t → isAlnumChar y = false := by
  intro y t hyt
  subst hyt
  simp only [isDelim, Bool.or_eq_true, decide_eq_true_eq] at h
  cases h with
  | inl h => subst h; decide
  | inr h => subst h; decide

theorem parseTermF_stopper (fuel : Nat) (r : List Char) (h : isStopper r = true)
    (hf : 1 ≤ fuel) : parseTermF fuel r = TOut.nothing := by
  obtain ⟨g, rfl⟩ : ∃ g, fuel = g + 1 := ⟨fuel - 1, by omega⟩
  cases r with
  | nil => simp [parseTermF]
  | cons c t =>
    simp only [isStopper, decide_eq_true_eq] at h
    subst h
    simp [parseTermF, List.takeWhile, show isAlnumChar ')' = false by decide]

theorem parseArgsF_stopper (fuel : Nat) (r : List Char) (h : isStopper r = true)
    (hf : 2 ≤ fuel) : parseArgsF fuel r = AOut.ok [] r := by
  obtain ⟨g, rfl⟩ : ∃ g, fuel = g + 1 := ⟨fuel - 1, by omega⟩
  simp [parseArgsF, parseTermF_stopper g r h (by omega)]

theorem lowerName_all_alnum (n : String) (h : lowerName n = true) :
    n.data.all isAlnumChar = true := by
  cases hn : n.data with
  | nil => simp [lowerName, hn] at h
  | cons c rest =>
    simp only [lowerName, hn, Bool.and_eq_true] at h
    simp [List.all_cons, (isLowerChar_props c h.1).2.2.1, h.2]

theorem upperName_all_alnum (n : String) (h : upperName n = true) :
    n.data.all isAlnumChar = true := by
  cases hn : n.data with
  | nil => simp [upperName, hn] at h
  | cons c rest =>
    simp only [upperName, hn, Bool.and_eq_true] at h
    simp [List.all_cons, (isUpperChar_props c h.1).2.1, h.2]

theorem argsToString_eq_argSeqChars :
    ∀ (a : Pattern) (rest : List Pattern),
      argsToString (a :: rest) = ' ' :: argSeqChars (a :: rest) := by
  intro a rest
  induction rest generalizing a with
  | nil => simp [argsToString, argSeqChars]
  | cons b rs ih =>
    show ' ' :: termToString a ++ argsToString (b :: rs) = _
    rw [ih b]
    simp [argSeqChars]

theorem wfArgs_head (a : Pattern) (rest : List Pattern)
    (h : wfArgs (a :: rest) = true) : wfPat a = true := by
  cases rest <;> simp only [wfArgs, Bool.and_eq_true] at h
  · exact h
  · exact h.1.1

theorem wfArgs_tail (a b : Pattern) (rs : List Pattern)
    (h : wfArgs (a :: b :: rs) = true) :
    selfDelim a = true ∧ wfArgs (b :: rs) = true := by
  simp only [wfArgs, Bool.and_eq_true] at h
  exact ⟨h.1.2, h.2⟩

theorem intChars_nonneg (v : Int) (h : 0 ≤ v) : intChars v = natDecimal v.toNat := by
  simp [intChars, show ¬ v < 0 by omega]

theorem termToString_head_not_ws (p : Pattern) (h : wfPat p = true) :
    ∃ c t, termToString p = c :: t ∧ isWsChar c = false := by
  cases p with
  | const n args =>
    simp only [wfPat, Bool.and_eq_true] at h
    cases args with
    | nil =>
      cases hn : n.data with
      | nil => simp [lowerName, hn] at h
      | cons c rest =>
        have hl : isLowerChar c = true := by
          have := h.1
          simp only [lowerName, hn, Bool.and_eq_true] at this
          exact this.1
        exact ⟨c, rest, by simp [termToString, hn], (isLowerChar_props c hl).2.2.2.1⟩
    | cons a rest =>
      exact ⟨'(', (n.data ++ argsToString (a :: rest)) ++ [')'],
        by simp [termToString], by decide⟩
  | int v =>
    simp only [wfPat, decide_eq_true_eq] at h
    obtain ⟨c, t, hct, hc⟩ := natDecimal_head_digit v.toNat
    exact ⟨c, t, by simp [termToString, intChars_nonneg v h, hct],
      (isDigitChar_props c hc).2.2.1⟩
  | string v => exact ⟨'"', v.data ++ ['"'], by simp [termToString], by decide⟩
  | var n =>
    simp only [wfPat] at h
    cases hn : n.data with
    | nil => simp [upperName, hn] at h
    | cons c rest =>
      have hu : isUpperChar c = true := by
        simp only [upperName, hn, Bool.and_eq_true] at h
        exact h.1
      exact ⟨c, rest, by simp [termToString, hn], (isUpperChar_props c hu).2.2.1⟩
  | triv => exact ⟨'(', [')'], by simp [termToString], by decide⟩

theorem termToString_ne_nil (p : Pattern) (h : wfPat p = true) : termToString p ≠ [] := by
  obtain ⟨c, t, hct, _⟩ := termToString_head_not_ws p h
  simp [hct]

theorem parseTermF_paren (g : Nat) (inner : List Char) (p : Pattern) (r2 : List Char)
    (hne : ∀ t, inner ≠ ')' :: t)
    (hinner : parseTermF g inner = TOut.found p (')' :: r2)) :
    parseTermF (g + 1) ('(' :: inner) = TOut.found p (trimStart r2) := by
  have h1 : ¬ ('(' : Char) = '"' := by decide
  cases inner with
  | nil =>
    simp only [parseTermF, if_neg h1, if_pos rfl, if_true]
    rw [hinner]
    rfl
  | cons c t =>
    simp only [parseTermF, if_neg h1, if_pos rfl, if_true]
    rw [hinner]
    rfl

theorem stringMk_data (n : String) : String.mk n.data = n := rfl

theorem parseTermF_upper (g : Nat) (n : String) (r : List Char)
    (hn : upperName n = true) (hr : isDelim r = true) :
    parseTermF (g + 1) (n.data ++ r) = TOut.found (Pattern.var n) (trimStart r) := by
  cases hd : n.data with
  | nil => simp [upperName, hd] at hn
  | cons c rest =>
    simp only [upperName, hd, Bool.and_eq_true] at hn
    have props := isUpperChar_props c hn.1
    simp only [List.cons_append]
    have htok : (c :: (rest ++ r)).takeWhile isAlnumChar = c :: rest := by
      have hall : (c :: rest).all isAlnumChar = true := by
        simp [List.all_cons, props.2.1, hn.2]
      have := takeWhile_append_exact isAlnumChar (c :: rest) r hall (isDelim_not_alnum r hr)
      simpa using this
    have hdrop : (c :: (rest ++ r)).drop (c :: rest).length = r :=
      drop_append_length (c :: rest) r
    simp only [parseTermF, if_neg props.2.2.2.1, if_neg props.2.2.2.2.1, htok, hdrop,
      if_pos hn.1, hn.1, if_true]
    rw [show String.mk (c :: rest) = n by rw [← hd]]

theorem all_digit_alnum (xs : List Char) (h : xs.all isDigitChar = true) :
    xs.all isAlnumChar = true := by
  induction xs with
  | nil => rfl
  | cons c t ih =>
    simp only [List.all_cons, Bool.and_eq_true] at h ⊢
    exact ⟨(isDigitChar_props c h.1).2.1, ih h.2⟩

theorem parseTermF_number (g m : Nat) (r : List Char) (hr : isDelim r = true) :
    parseTermF (g + 1) (natDecimal m ++ r) =
      TOut.found (Pattern.int (Int.ofNat m)) (trimStart r) := by
  obtain ⟨c, t, hd, hc⟩ := natDecimal_head_digit m
  have props := isDigitChar_props c hc
  have halldig : (c :: t).all isDigitChar = true := by
    rw [← hd]
    exact natDecimal_all_digit m
  have hallal : (c :: t).all isAlnumChar = true := all_digit_alnum _ halldig
  rw [hd]
  simp only [List.cons_append]
  have htok : (c :: (t ++ r)).takeWhile isAlnumChar = c :: t := by
    have := takeWhile_append_exact isAlnumChar (c :: t) r hallal (isDelim_not_alnum r hr)
    simpa using this
  have hdig : (c :: t).takeWhile isDigitChar = c :: t := takeWhile_all _ _ halldig
  have hdrop : (c :: (t ++ r)).drop (c :: t).length = r := drop_append_length (c :: t) r
  have hval : digitsVal (c :: t) = m := by
    rw [← hd]
    exact digitsVal_natDecimal m
  have hcanon : natDecimal (digitsVal ((c :: t).takeWhile isDigitChar)) = c :: t := by
    rw [hdig, hval]
    exact hd
  simp only [parseTermF, if_neg props.2.2.2.1, if_neg props.2.2.2.2.1, htok, props.1,
    Bool.false_eq_true, if_false, hc, if_true, hcanon, if_pos, hdig, hval, hdrop]
  rw [if_pos hd]

theorem parseTermF_stringLit (g : Nat) (v : String) (r : List Char)
    (hv : v.data.all (fun c => c != '"') = true) :
    parseTermF (g + 1) ('"' :: (v.data ++ '"' :: r)) =
      TOut.found (Pattern.string v) (trimStart r) := by
  have hdropw : (v.data ++ '"' :: r).dropWhile (fun x => x != '"') = '"' :: r :=
    dropWhile_append_exact _ v.data ('"' :: r) hv
      (by intro y s h; cases h; simp)
  have htakew : (v.data ++ '"' :: r).takeWhile (fun x => x != '"') = v.data :=
    takeWhile_append_exact _ v.data ('"' :: r) hv
      (by intro y s h; cases h; simp)
  simp only [parseTermF, if_pos rfl, hdropw, htakew, stringMk_data, if_true]

theorem parseTermF_trivLit (g : Nat) (r : List Char) :
    parseTermF (g + 1) ('(' :: ')' :: r) = TOut.found Pattern.triv (trimStart r) := by
  simp only [parseTermF, if_neg (show ¬ ('(' : Char) = '"' by decide), if_pos rfl, if_true]

theorem parseTermF_lower (g : Nat) (n : String) (r : List Char)
    (hn : lowerName n = true) (hr : isDelim r = true) :
    parseTermF (g + 1) (n.data ++ r) =
      (match parseArgsF g (trimStart r) with
       | AOut.ok args r2 => TOut.found (Pattern.const n args) r2
       | AOut.err => TOut.err
       | AOut.out => TOut.out) := by
  cases hd : n.data with
  | nil => simp [lowerName, hd] at hn
  | cons c rest =>
    simp only [lowerName, hd, Bool.and_eq_true] at hn
    have props := isLowerChar_props c hn.1
    simp only [List.cons_append]
    have htok : (c :: (rest ++ r)).takeWhile isAlnumChar = c :: rest := by
      have hall : (c :: rest).all isAlnumChar = true := by
        simp [List.all_cons, props.2.2.1, hn.2]
      have := takeWhile_append_exact isAlnumChar (c :: rest) r hall (isDelim_not_alnum r hr)
      simpa using this
    have hdrop : (c :: (rest ++ r)).drop (c :: rest).length = r :=
      drop_append_length (c :: rest) r
    simp only [parseTermF, if_neg props.2.2.2.2.1, if_neg props.2.2.2.2.2.1, htok, props.1,
      props.2.1, Bool.false_eq_true, if_false, hdrop]
    rw [show String.mk (c :: rest) = n by rw [← hd]]

theorem lowerName_data_ne_nil (n : String) (h : lowerName n = true) : n.data ≠ [] := by
  cases hd : n.data with
  | nil => simp [lowerName, hd] at h
  | cons c t => simp

theorem argSeqChars_head (a : Pattern) (rest : List Pattern) (hwf : wfPat a = true) :
    ∀ c t, argSeqChars (a :: rest) = c :: t → isWsChar c = false := by
  obtain ⟨c0, t0, hct, hc0⟩ := termToString_head_not_ws a hwf
  intro c t h
  cases rest with
  | nil =>
    simp only [argSeqChars, hct] at h
    injection h with h1 h2
    rw [← h1]
    exact hc0
  | cons b rs =>
    simp only [argSeqChars, hct, List.cons_append] at h
    injection h with h1 h2
    rw [← h1]
    exact hc0

theorem parseArgsF_step_found (g : Nat) (s r : List Char) (p : Pattern)
    (h : parseTermF g s = TOut.found p r) :
    parseArgsF (g + 1) s =
      (match parseArgsF g r with
       | AOut.ok ps r2 => AOut.ok (p :: ps) r2
       | AOut.err => AOut.err
       | AOut.out => AOut.out) := by
  simp only [parseArgsF, h]
  cases parseArgsF g r <;> rfl

theorem parseRoundAux : ∀ fuel : Nat,
    (∀ (p : Pattern) (r : List Char), wfPat p = true → isDelim r = true →
      (selfDelim p = false → isStopper r = true) →
      2 * (termToString p ++ r).length + 2 ≤ fuel →
      parseTermF fuel (termToString p ++ r) = TOut.found p (trimStart r)) ∧
    (∀ (args : List Pattern) (r : List Char), wfArgs args = true → isStopper r = true →
      2 * (argSeqChars args ++ r).length + 3 ≤ fuel →
      parseArgsF fuel (argSeqChars args ++ r) = AOut.ok args r) := by
  intro fuel
  induction fuel using Nat.strong_induction_on with
  | _ fuel ih =>
    constructor
    · intro p r hwf hdelim hstop hfuel
      obtain ⟨g, rfl⟩ : ∃ g, fuel = g + 1 := ⟨fuel - 1, by omega⟩
      cases p with
      | var n =>
        simp only [termToString]
        exact parseTermF_upper g n r (by simpa [wfPat] using hwf) hdelim
      | int v =>
        have h0 : (0 : Int) ≤ v := by simpa [wfPat] using hwf
        have hsh : termToString (Pattern.int v) = natDecimal v.toNat := by
          simp [termToString, intChars_nonneg v h0]
        rw [hsh, parseTermF_number g v.toNat r hdelim]
        simp [Int.toNat_of_nonneg h0]
      | string v =>
        have hv : v.data.all (fun c => c != '"') = true := by simpa [wfPat] using hwf
        have hsh : termToString (Pattern.string v) ++ r = '"' :: (v.data ++ '"' :: r) := by
          simp [termToString]
        rw [hsh]
        exact parseTermF_stringLit g v r hv
      | triv =>
        have hsh : termToString Pattern.triv ++ r = '(' :: ')' :: r := by
          simp [termToString]
        rw [hsh]
        exact parseTermF_trivLit g r
      | const n args =>
        have hn : lowerName n = true ∧ wfArgs args = true := by
          simpa [wfPat] using hwf
        cases args with
        | nil =>
          have hstop2 : isStopper r = true := hstop (by simp [selfDelim])
          have hlen : 1 ≤ n.data.length := by
            cases hd : n.data with
            | nil => exact absurd hd (lowerName_data_ne_nil n hn.1)
            | cons c t => simp
          have hlen2 : n.data.length + r.length = (termToString (Pattern.const n []) ++ r).length := by
            simp [termToString]
          simp only [termToString]
          rw [parseTermF_lower g n r hn.1 hdelim, trimStart_stopper r hstop2,
            parseArgsF_stopper g r hstop2 (by omega)]
        | cons a args2 =>
          have hsh : termToString (Pattern.const n (a :: args2)) ++ r =
              '(' :: (n.data ++ (' ' :: (argSeqChars (a :: args2) ++ (')' :: r)))) := by
            simp [termToString, argsToString_eq_argSeqChars a args2]
          have hlen : 1 ≤ n.data.length := by
            cases hd : n.data with
            | nil => exact absurd hd (lowerName_data_ne_nil n hn.1)
            | cons c t => simp
          have hlen2 : (termToString (Pattern.const n (a :: args2)) ++ r).length =
              n.data.length + (argSeqChars (a :: args2)).length + r.length + 3 := by
            rw [hsh]
            simp
            omega
          obtain ⟨g1, rfl⟩ : ∃ g1, g = g1 + 1 := ⟨g - 1, by omega⟩
          rw [hsh]
          have hX : trimStart (' ' :: (argSeqChars (a :: args2) ++ (')' :: r))) =
              argSeqChars (a :: args2) ++ (')' :: r) := by
            rw [trimStart_space]
            apply trimStart_not_ws
            intro c t hct
            obtain ⟨c2, t2, hc2t, hc2⟩ :
                ∃ c2 t2, argSeqChars (a :: args2) = c2 :: t2 ∧ isWsChar c2 = false := by
              cases hq : argSeqChars (a :: args2) with
              | nil =>
                exfalso
                have hne := termToString_ne_nil a (wfArgs_head a args2 hn.2)
                cases args2 with
                | nil => simp only [argSeqChars] at hq; exact hne hq
                | cons b rs =>
                  simp only [argSeqChars] at hq
                  exact hne (List.append_eq_nil.mp hq).1
              | cons c2 t2 =>
                exact ⟨c2, t2, rfl, argSeqChars_head a args2 (wfArgs_head a args2 hn.2) c2 t2 hq⟩
            rw [hc2t] at hct
            simp only [List.cons_append, List.cons.injEq] at hct
            rw [← hct.1]
            exact hc2
          have hlen4 : (argSeqChars (a :: args2) ++ (')' :: r)).length =
              (argSeqChars (a :: args2)).length + r.length + 1 := by
            simp
            omega
          have hA := (ih g1 (by omega)).2 (a :: args2) (')' :: r) hn.2
            (by simp [isStopper]) (by omega)
          have hinner : parseTermF (g1 + 1)
              (n.data ++ (' ' :: (argSeqChars (a :: args2) ++ (')' :: r)))) =
              TOut.found (Pattern.const n (a :: args2)) (')' :: r) := by
            rw [parseTermF_lower g1 n _ hn.1 (by simp [isDelim]), hX, hA]
          apply parseTermF_paren (g1 + 1) _ _ r _ hinner
          intro t heq
          cases hd : n.data with
          | nil => exact lowerName_data_ne_nil n hn.1 hd
          | cons c crest =>
            rw [hd] at heq
            simp only [List.cons_append, List.cons.injEq] at heq
            have hl : isLowerChar c = true := by
              have := hn.1
              simp only [lowerName, hd, Bool.and_eq_true] at this
              exact this.1
            exact (isLowerChar_props c hl).2.2.2.2.2.2 heq.1
    · intro args r hwfa hstop hfuel
      obtain ⟨g, rfl⟩ : ∃ g, fuel = g + 1 := ⟨fuel - 1, by omega⟩
      cases args with
      | nil =>
        simp only [argSeqChars, List.nil_append] at hfuel ⊢
        exact parseArgsF_stopper (g + 1) r hstop (by omega)
      | cons a args2 =>
        have hane := termToString_ne_nil a (wfArgs_head a args2 hwfa)
        have halen : 1 ≤ (termToString a).length := by
          cases ht : termToString a with
          | nil => exact absurd ht hane
          | cons c t => simp
        cases args2 with
        | nil =>
          simp only [argSeqChars] at hfuel ⊢
          have hT := (ih g (by omega)).1 a r (wfArgs_head a [] hwfa)
            (isStopper_isDelim r hstop) (fun _ => hstop) (by omega)
          have hT2 : parseTermF g (termToString a ++ r) = TOut.found a r := by
            rw [hT, trimStart_stopper r hstop]
          rw [parseArgsF_step_found g _ r a hT2,
            parseArgsF_stopper g r hstop (by omega)]
        | cons b rs =>
          obtain ⟨hsda, hwfb⟩ := wfArgs_tail a b rs hwfa
          have hsh : argSeqChars (a :: b :: rs) ++ r =
              termToString a ++ (' ' :: (argSeqChars (b :: rs) ++ r)) := by
            simp [argSeqChars]
          have hlen3 : (argSeqChars (a :: b :: rs) ++ r).length =
              (termToString a).length + (argSeqChars (b :: rs) ++ r).length + 1 := by
            rw [hsh]
            simp
            omega
          rw [hsh]
          have hT := (ih g (by omega)).1 a (' ' :: (argSeqChars (b :: rs) ++ r)) (wfArgs_head a (b :: rs) hwfa)
            (by simp [isDelim]) (fun h => by rw [hsda] at h; cases h) (by rw [← hsh]; omega)
          have hXh : ∀ c t, argSeqChars (b :: rs) ++ r = c :: t → isWsChar c = false := by
            intro c t hct
            obtain ⟨c2, t2, hc2t, hc2⟩ :
                ∃ c2 t2, argSeqChars (b :: rs) = c2 :: t2 ∧ isWsChar c2 = false := by
              cases hq : argSeqChars (b :: rs) with
              | nil =>
                exfalso
                have hbne := termToString_ne_nil b (wfArgs_head b rs hwfb)
                cases rs with
                | nil => simp only [argSeqChars] at hq; exact hbne hq
                | cons d ds =>
                  simp only [argSeqChars] at hq
                  exact hbne (List.append_eq_nil.mp hq).1
              | cons c2 t2 =>
                exact ⟨c2, t2, rfl, argSeqChars_head b rs (wfArgs_head b rs hwfb) c2 t2 hq⟩
            rw [hc2t] at hct
            simp only [List.cons_append, List.cons.injEq] at hct
            rw [← hct.1]
            exact hc2
          have hX : trimStart (' ' :: (argSeqChars (b :: rs) ++ r)) =
              argSeqChars (b :: rs) ++ r := by
            rw [trimStart_space]
            exact trimStart_not_ws _ hXh
          have hA := (ih g (by omega)).2 (b :: rs) r hwfb hstop (by omega)
          have hT2 : parseTermF g (termToString a ++ (' ' :: (argSeqChars (b :: rs) ++ r))) =
              TOut.found a (argSeqChars (b :: rs) ++ r) := by
            rw [hT, hX]
          rw [parseArgsF_step_found g _ _ a hT2, hA]

/-- C9 (amended): printing and parsing of terms round-trip for every
pattern whose constructor names are a lowercase letter followed by
alphanumerics, variable names an uppercase letter followed by
alphanumerics, integer literals non-negative, string literals free of
double quotes, and in which no constructor argument other than the last
one is a zero-argument constructor. -/
theorem parse_print_roundtrip (p : Pattern) (h : wfPat p = true) :
    parsePattern (termToString p) = some p := by
  have hT := (parseRoundAux (2 * (termToString p).length + 2)).1 p [] h rfl
    (fun _ => rfl) (by simp)
  simp only [List.append_nil] at hT
  simp [parsePattern, parseTerm, hT, trimStart]

/-- The round-trip witness pattern f applied to a variable and an
integer. -/
def pRoundW : Pattern := Pattern.const "f" [Pattern.var "X", Pattern.int 5]

theorem parse_print_roundtrip_witness :
    wfPat pRoundW = true ∧ parsePattern (termToString pRoundW) = some pRoundW :=
  ⟨by decide, parse_print_roundtrip pRoundW (by decide)⟩

/-- The pattern f(a, b): two zero-argument constructor arguments. -/
def pRound : Pattern := Pattern.const "f" [Pattern.const "a" [], Pattern.const "b" []]

/-- The pattern f(a(b)): what the printed form of f(a, b) parses back
to. -/
def pRoundParsed : Pattern := Pattern.const "f" [Pattern.const "a" [Pattern.const "b" []]]

/-- C9 as stated fails: the pattern f(a, b) satisfies every condition of
the claim (lowercase constructor names), prints as the seven characters
open-parenthesis f space a space b close-parenthesis, and parses back to
f(a(b)): a bare zero-argument constructor argument greedily absorbs the
arguments printed after it. -/
theorem parse_print_roundtrip_cex :
    wfPatOrig pRound = true ∧ parsePattern (termToString pRound) = some pRoundParsed ∧
      pRoundParsed ≠ pRound := by
  exact ⟨by decide, by decide, by decide⟩

end Aspis
